import Mathlib

/-!
# Verification of brainpipe connectivity and classification utilities

Shallow embedding of the numerical routines of the brainpipe repository:

* `brainpipe/connectivity/correction.py` — pair indexing (`get_pairs`),
  SEEG contact masking (`remove_site_contact`), anatomical reordering
  (`anat_based_reorder`), anatomical averaging (`anat_based_mean`),
  ravel/unravel of triangular entries, `symmetrize`, `concat_connect`;
* `brainpipe/connectivity/stgc.py` — the final magnitude/NaN/Inf
  sanitisation stage of `covgc_time`;
* `xPOO/classification.py` — the significance-method dispatch of
  `classify.stat`.

Matrices are embedded as functions `Nat → Nat → Int` (entries outside the
declared size are irrelevant to every statement); a Python function that can
raise on its modelled path is embedded as an `Option`-valued function with
`none` standing for the raised exception.
-/

/-- The three admissible values of the `part` selector of `get_pairs`. -/
inductive TriPart where
  | upper
  | lower
  | both
  deriving DecidableEq, Repr

/-- Row-major strict upper-triangle index pairs, the order produced by
`np.triu_indices(n, k=1)`: for each row `i` in increasing order, all columns
`j > i` in increasing order. -/
def upperPairs (n : Nat) : List (Nat × Nat) :=
  (List.range n).flatMap fun i =>
    ((List.range n).filter fun j => decide (i < j)).map fun j => (i, j)

/-- Row-major strict lower-triangle index pairs, the order produced by
`np.tril_indices(n, k=-1)`: for each row `i` in increasing order, all columns
`j < i` in increasing order. -/
def lowerPairs (n : Nat) : List (Nat × Nat) :=
  (List.range n).flatMap fun i =>
    ((List.range n).filter fun j => decide (j < i)).map fun j => (i, j)

/-- The pair list of `get_pairs` for each valid `part` selector; for
`'both'` the source stacks the upper pairs on top of the lower pairs
(`np.r_[high, low]`). -/
def get_pairsOf (n : Nat) : TriPart → List (Nat × Nat)
  | .upper => upperPairs n
  | .lower => lowerPairs n
  | .both => upperPairs n ++ lowerPairs n

/-- The string spelling of each valid `part` selector. -/
def stringOfPart : TriPart → String
  | .upper => "upper"
  | .lower => "lower"
  | .both => "both"

/-- `get_pairs(n, part)` from `correction.py`: the `assert part in
['upper', 'lower', 'both']` raises (modelled by `none`) on any other string;
otherwise the triangular index pairs are returned. -/
def get_pairs (n : Nat) (part : String) : Option (List (Nat × Nat)) :=
  if part = "upper" then some (get_pairsOf n .upper)
  else if part = "lower" then some (get_pairsOf n .lower)
  else if part = "both" then some (get_pairsOf n .both)
  else none

theorem mem_upperPairs {n i j : Nat} :
    (i, j) ∈ upperPairs n ↔ i < j ∧ j < n := by
  simp only [upperPairs, List.mem_flatMap, List.mem_map, List.mem_filter,
    List.mem_range, decide_eq_true_eq]
  constructor
  · rintro ⟨a, ha, b, ⟨hb, hab⟩, h⟩
    cases h
    exact ⟨hab, hb⟩
  · rintro ⟨hij, hj⟩
    exact ⟨i, lt_trans hij hj, j, ⟨hj, hij⟩, rfl⟩

theorem mem_lowerPairs {n i j : Nat} :
    (i, j) ∈ lowerPairs n ↔ j < i ∧ i < n := by
  simp only [lowerPairs, List.mem_flatMap, List.mem_map, List.mem_filter,
    List.mem_range, decide_eq_true_eq]
  constructor
  · rintro ⟨a, ha, b, ⟨hb, hab⟩, h⟩
    cases h
    exact ⟨hab, ha⟩
  · rintro ⟨hji, hi⟩
    exact ⟨i, hi, j, ⟨lt_trans hji hi, hji⟩, rfl⟩

theorem length_filter_range_gt (n i : Nat) :
    ((List.range n).filter fun j => decide (i < j)).length = n - (i + 1) := by
  induction n with
  | zero => simp
  | succ n ih =>
    rw [List.range_succ, List.filter_append, List.length_append, ih]
    by_cases h : i < n
    · simp only [List.filter_cons, List.filter_nil, h]
      simp
      omega
    · simp only [List.filter_cons, List.filter_nil, h]
      simp
      omega

theorem length_filter_range_lt (n i : Nat) :
    ((List.range n).filter fun j => decide (j < i)).length = min i n := by
  induction n with
  | zero => simp
  | succ n ih =>
    rw [List.range_succ, List.filter_append, List.length_append, ih]
    by_cases h : n < i
    · simp only [List.filter_cons, List.filter_nil, h]
      simp
      omega
    · simp only [List.filter_cons, List.filter_nil, h]
      simp
      omega

theorem list_sum_map_range (f : Nat → Nat) (n : Nat) :
    ((List.range n).map f).sum = ∑ i ∈ Finset.range n, f i := by
  induction n with
  | zero => simp
  | succ n ih => simp [List.range_succ, Finset.sum_range_succ, ih]

theorem length_upperPairs (n : Nat) :
    (upperPairs n).length = n * (n - 1) / 2 := by
  rw [upperPairs, List.length_flatMap]
  have h1 : (List.length ∘ fun i =>
      ((List.range n).filter fun j => decide (i < j)).map fun j => (i, j))
      = fun i => n - (i + 1) := by
    funext a
    simp only [Function.comp_apply, List.length_map, length_filter_range_gt]
  rw [h1, list_sum_map_range]
  have h2 : ∀ i ∈ Finset.range n, n - (i + 1) = n - 1 - i := by
    intro i _
    omega
  rw [Finset.sum_congr rfl h2, Finset.sum_range_reflect (fun i => i) n,
    Finset.sum_range_id]

theorem length_lowerPairs (n : Nat) :
    (lowerPairs n).length = n * (n - 1) / 2 := by
  rw [lowerPairs, List.length_flatMap]
  have h1 : (List.length ∘ fun i =>
      ((List.range n).filter fun j => decide (j < i)).map fun j => (i, j))
      = fun i => min i n := by
    funext a
    simp only [Function.comp_apply, List.length_map, length_filter_range_lt]
  rw [h1, list_sum_map_range]
  have h2 : ∀ i ∈ Finset.range n, min i n = i := by
    intro i hi
    rw [Finset.mem_range] at hi
    omega
  rw [Finset.sum_congr rfl h2, Finset.sum_range_id]

theorem nodup_upperPairs (n : Nat) : (upperPairs n).Nodup := by
  rw [upperPairs, List.nodup_flatMap]
  refine ⟨fun i _ => ?_, ?_⟩
  · exact ((List.nodup_range n).filter _).map
      (fun a b h => by simpa using congrArg Prod.snd h)
  · have h := List.pairwise_lt_range n
    refine h.imp ?_
    intro a b hab x hxa hxb
    rcases List.mem_map.1 hxa with ⟨u, _, rfl⟩
    rcases List.mem_map.1 hxb with ⟨v, _, hv⟩
    have : a = b := congrArg Prod.fst hv.symm
    omega

theorem nodup_lowerPairs (n : Nat) : (lowerPairs n).Nodup := by
  rw [lowerPairs, List.nodup_flatMap]
  refine ⟨fun i _ => ?_, ?_⟩
  · exact ((List.nodup_range n).filter _).map
      (fun a b h => by simpa using congrArg Prod.snd h)
  · have h := List.pairwise_lt_range n
    refine h.imp ?_
    intro a b hab x hxa hxb
    rcases List.mem_map.1 hxa with ⟨u, _, rfl⟩
    rcases List.mem_map.1 hxb with ⟨v, _, hv⟩
    have : a = b := congrArg Prod.fst hv.symm
    omega

/-- Scatter assignment `connect_ur[pairs[0], pairs[1]] = connect` of
`unravel_connect`: starting from the zero matrix, each pair receives the
corresponding entry of the flat vector; as with numpy fancy assignment, a
later duplicate position would overwrite an earlier one. -/
def scatterFold (ps : List (Nat × Nat)) (v : List Int) : Nat → Nat → Int :=
  (ps.zip v).foldl
    (fun M pv => fun i j => if i = pv.1.1 ∧ j = pv.1.2 then pv.2 else M i j)
    (fun _ _ => 0)

/-- `ravel_connect(connect, part)` from `correction.py`: reads the entries of
the square matrix at the `get_pairs` positions, in pair order; an invalid
`part` raises inside `get_pairs` (modelled by `none`). -/
def ravel_connect (n : Nat) (A : Nat → Nat → Int) (part : String) :
    Option (List Int) :=
  (get_pairs n part).map fun ps => ps.map fun pr => A pr.1 pr.2

/-- `unravel_connect(connect, n_sites, part)` from `correction.py`: scatters a
flat vector into an `n × n` zero-initialised matrix at the `get_pairs`
positions; a flat vector whose length does not match the number of pairs
makes the numpy assignment raise (modelled by `none`). -/
def unravel_connect (v : List Int) (n : Nat) (part : String) :
    Option (Nat → Nat → Int) :=
  (get_pairs n part).bind fun ps =>
    if v.length = ps.length then some (scatterFold ps v) else none

theorem foldl_scatter_map (f : Nat × Nat → Int) :
    ∀ (ps : List (Nat × Nat)) (M : Nat → Nat → Int) (i j : Nat),
    ((ps.map fun p => (p, f p)).foldl
      (fun M pv => fun a b => if a = pv.1.1 ∧ b = pv.1.2 then pv.2 else M a b)
      M) i j
    = if (i, j) ∈ ps then f (i, j) else M i j := by
  intro ps
  induction ps with
  | nil => simp
  | cons p ps ih =>
    intro M i j
    obtain ⟨p1, p2⟩ := p
    simp only [List.map_cons, List.foldl_cons, List.mem_cons]
    rw [ih]
    by_cases hmem : (i, j) ∈ ps
    · simp [hmem]
    · by_cases hp : i = p1 ∧ j = p2
      · obtain ⟨rfl, rfl⟩ := hp
        simp [hmem]
      · have hne : ¬((i, j) = (p1, p2)) := by
          simp only [Prod.mk.injEq]
          exact hp
        simp [hmem, hne, hp]

theorem scatterFold_of_map (ps : List (Nat × Nat)) (A : Nat → Nat → Int)
    (i j : Nat) :
    scatterFold ps (ps.map fun pr => A pr.1 pr.2) i j
    = if (i, j) ∈ ps then A i j else 0 := by
  rw [scatterFold]
  have hz : ps.zip (ps.map fun pr => A pr.1 pr.2)
      = ps.map fun p => (p, A p.1 p.2) := by
    have h := List.zip_map' id (fun pr : Nat × Nat => A pr.1 pr.2) ps
    simpa using h
  rw [hz]
  exact foldl_scatter_map (fun p => A p.1 p.2) ps _ i j

/-- C4: for every `n × n` matrix `A` and every part in
`{'upper', 'lower', 'both'}`, `unravel_connect(ravel_connect(A, part), n,
part)` succeeds and equals `A` at exactly the positions selected by
`get_pairs(n, part)` and is zero at every other position. -/
theorem unravel_ravel_roundtrip (n : Nat) (A : Nat → Nat → Int)
    (p : TriPart) :
    ∃ v M, ravel_connect n A (stringOfPart p) = some v ∧
      unravel_connect v n (stringOfPart p) = some M ∧
      ∀ i j, M i j = if (i, j) ∈ get_pairsOf n p then A i j else 0 := by
  have hg : get_pairs n (stringOfPart p) = some (get_pairsOf n p) := by
    cases p <;> rfl
  refine ⟨(get_pairsOf n p).map fun pr => A pr.1 pr.2,
    scatterFold (get_pairsOf n p) ((get_pairsOf n p).map fun pr => A pr.1 pr.2),
    ?_, ?_, ?_⟩
  · rw [ravel_connect, hg]
    rfl
  · rw [unravel_connect, hg]
    simp [Option.bind, List.length_map]
  · intro i j
    exact scatterFold_of_map (get_pairsOf n p) A i j

/-- C6: for every `n ≥ 2`, `get_pairs(n,'upper')` returns exactly the
`n(n-1)/2` pairs `(i,j)` with `i < j`; `get_pairs(n,'lower')` exactly the
pairs with `i > j`; `get_pairs(n,'both')` the upper pairs followed by the
lower pairs; and any `part` outside `{'upper','lower','both'}` makes the
assertion fail (modelled by `none`). -/
theorem get_pairs_spec (n : Nat) (hn : 2 ≤ n) :
    (get_pairsOf n TriPart.upper).length = n * (n - 1) / 2 ∧
    (∀ i j, (i, j) ∈ get_pairsOf n TriPart.upper ↔ i < j ∧ j < n) ∧
    (get_pairsOf n TriPart.upper).Nodup ∧
    (∀ i j, (i, j) ∈ get_pairsOf n TriPart.lower ↔ j < i ∧ i < n) ∧
    (get_pairsOf n TriPart.lower).Nodup ∧
    get_pairsOf n TriPart.both
      = get_pairsOf n TriPart.upper ++ get_pairsOf n TriPart.lower ∧
    (∀ s : String, s ≠ "upper" → s ≠ "lower" → s ≠ "both" →
      get_pairs n s = none) ∧
    get_pairs n "upper" = some (get_pairsOf n TriPart.upper) ∧
    get_pairs n "lower" = some (get_pairsOf n TriPart.lower) ∧
    get_pairs n "both" = some (get_pairsOf n TriPart.both) := by
  refine ⟨length_upperPairs n, fun i j => mem_upperPairs,
    nodup_upperPairs n, fun i j => mem_lowerPairs, nodup_lowerPairs n,
    rfl, ?_, rfl, rfl, rfl⟩
  intro s h1 h2 h3
  simp [get_pairs, h1, h2, h3]

theorem get_pairs_spec_witness :
    (get_pairsOf 3 TriPart.upper).length = 3 * (3 - 1) / 2 ∧
    get_pairs 3 "diag" = none := by
  have h := get_pairs_spec 3 (by decide)
  exact ⟨h.1, h.2.2.2.2.2.2.1 "diag" (by decide) (by decide) (by decide)⟩

/-- The pointwise formula `arr + arr.T - np.diag(arr.diagonal())` at the
heart of `symmetrize`. -/
def symmetrizeFun (A : Nat → Nat → Int) : Nat → Nat → Int :=
  fun i j => A i j + A j i - (if i = j then A i i else 0)

/-- Entry of a matrix represented as a list of rows (out-of-range reads,
which no theorem relies on, default to `0`). -/
def entryAt (m : List (List Int)) (i j : Nat) : Int :=
  (m.getD i []).getD j 0

/-- The shape test of `symmetrize`'s assertions: a 2-D array is square when
every row's length equals the number of rows. -/
def isSquareMat (m : List (List Int)) : Bool :=
  m.all fun r => r.length = m.length

/-- `symmetrize(arr)` from `correction.py`: asserts the argument is a square
2-D array (failure modelled by `none`), then returns
`arr + arr.T - np.diag(arr.diagonal())`. -/
def symmetrize (m : List (List Int)) : Option (List (List Int)) :=
  if isSquareMat m then
    some ((List.range m.length).map fun i =>
      (List.range m.length).map fun j => symmetrizeFun (entryAt m) i j)
  else none

theorem entryAt_build (f : Nat → Nat → Int) (n i j : Nat)
    (hi : i < n) (hj : j < n) :
    entryAt ((List.range n).map fun a =>
      (List.range n).map fun b => f a b) i j = f i j := by
  unfold entryAt
  have h1 : (((List.range n).map fun a =>
      (List.range n).map fun b => f a b)).getD i []
      = (List.range n).map fun b => f i b := by
    rw [List.getD_eq_getElem?_getD, List.getElem?_map, List.getElem?_range hi]
    rfl
  rw [h1, List.getD_eq_getElem?_getD, List.getElem?_map,
    List.getElem?_range hj]
  rfl

/-- C7: for every square 2-D array, `symmetrize` returns
`arr + arr.T - diag(diagonal(arr))`, which is exactly symmetric and keeps the
diagonal; a non-square argument fails the assertion (modelled by `none`). -/
theorem symmetrize_spec (m : List (List Int)) :
    (∀ s, symmetrize m = some s →
      (∀ i j, i < m.length → j < m.length →
        entryAt s i j
          = entryAt m i j + entryAt m j i
            - (if i = j then entryAt m i i else 0)) ∧
      (∀ i j, i < m.length → j < m.length → entryAt s i j = entryAt s j i) ∧
      (∀ i, i < m.length → entryAt s i i = entryAt m i i)) ∧
    (isSquareMat m = false → symmetrize m = none) := by
  constructor
  · intro s hs
    rw [symmetrize] at hs
    by_cases hsq : isSquareMat m
    · rw [if_pos hsq] at hs
      obtain rfl := (Option.some_inj.1 hs).symm
      refine ⟨?_, ?_, ?_⟩
      · intro i j hi hj
        rw [entryAt_build _ _ _ _ hi hj]
        rfl
      · intro i j hi hj
        rw [entryAt_build _ _ _ _ hi hj, entryAt_build _ _ _ _ hj hi]
        simp only [symmetrizeFun]
        by_cases hij : i = j
        · subst hij
          ring
        · rw [if_neg hij, if_neg fun h => hij h.symm]
          ring
      · intro i hi
        rw [entryAt_build _ _ _ _ hi hi]
        simp only [symmetrizeFun, eq_self_iff_true, if_true]
        ring
    · rw [if_neg hsq] at hs
      exact absurd hs (by simp)
  · intro h
    rw [symmetrize, h]
    simp

theorem symmetrize_spec_witness :
    entryAt [[(1 : Int), 5], [5, 4]] 0 1
      = entryAt [[(1 : Int), 2], [3, 4]] 0 1
        + entryAt [[(1 : Int), 2], [3, 4]] 1 0
        - (if (0 : Nat) = 1 then entryAt [[(1 : Int), 2], [3, 4]] 0 0 else 0) ∧
    symmetrize [[(1 : Int)], [2]] = none :=
  ⟨((symmetrize_spec [[(1 : Int), 2], [3, 4]]).1 [[(1 : Int), 5], [5, 4]]
      (by decide)).1 0 1 (by decide) (by decide),
    (symmetrize_spec [[(1 : Int)], [2]]).2 (by decide)⟩

/-- One block placement `aconnect[q:q+s, q:q+s] = c` of `concat_connect`. -/
def placeBlock (M : Nat → Nat → Int) (off n : Nat) (B : Nat → Nat → Int) :
    Nat → Nat → Int :=
  fun i j =>
    if off ≤ i ∧ i < off + n ∧ off ≤ j ∧ j < off + n then
      B (i - off) (j - off)
    else M i j

/-- The merge loop of `concat_connect`: starting from offset `q` and matrix
`M`, place each (size, block) in turn and advance the offset by its size. -/
def concatFold (ms : List (Nat × (Nat → Nat → Int))) (q : Nat)
    (M : Nat → Nat → Int) : Nat × (Nat → Nat → Int) :=
  ms.foldl (fun acc m => (acc.1 + m.1, placeBlock acc.2 acc.1 m.1 m.2)) (q, M)

/-- `concat_connect(connect, fill_with)` from `correction.py`: allocates a
`(Σ sizes) × (Σ sizes)` matrix filled with `fill_with` and copies each square
block at consecutive diagonal offsets; returns (total size, matrix). -/
def concat_connect (ms : List (Nat × (Nat → Nat → Int))) (fill : Int) :
    Nat × (Nat → Nat → Int) :=
  concatFold ms 0 (fun _ _ => fill)

/-- Offset of the `k`-th block: the sum of the sizes of the blocks before
it. -/
def blockOff (ms : List (Nat × (Nat → Nat → Int))) (k : Nat) : Nat :=
  ((ms.take k).map Prod.fst).sum

/-- Placeholder block used as the `getD` default in statements. -/
def blockDefault : Nat × (Nat → Nat → Int) := (0, fun _ _ => 0)

theorem blockOff_cons (x : Nat × (Nat → Nat → Int))
    (ms : List (Nat × (Nat → Nat → Int))) (k : Nat) :
    blockOff (x :: ms) (k + 1) = x.1 + blockOff ms k := by
  simp [blockOff, List.take_succ_cons]

theorem concatFold_fst (ms : List (Nat × (Nat → Nat → Int))) :
    ∀ (q : Nat) (M : Nat → Nat → Int),
    (concatFold ms q M).1 = q + (ms.map Prod.fst).sum := by
  induction ms with
  | nil => intro q M; simp [concatFold]
  | cons x ms ih =>
    intro q M
    have hstep : concatFold (x :: ms) q M
        = concatFold ms (q + x.1) (placeBlock M q x.1 x.2) := rfl
    rw [hstep, ih]
    simp [List.map_cons]
    omega

theorem concatFold_untouched (ms : List (Nat × (Nat → Nat → Int))) :
    ∀ (q : Nat) (M : Nat → Nat → Int) (i j : Nat),
    (∀ k, k < ms.length →
      ¬(q + blockOff ms k ≤ i ∧
        i < q + blockOff ms k + (ms.getD k blockDefault).1 ∧
        q + blockOff ms k ≤ j ∧
        j < q + blockOff ms k + (ms.getD k blockDefault).1)) →
    (concatFold ms q M).2 i j = M i j := by
  induction ms with
  | nil => intro q M i j _; rfl
  | cons x ms ih =>
    intro q M i j hout
    have hstep : concatFold (x :: ms) q M
        = concatFold ms (q + x.1) (placeBlock M q x.1 x.2) := rfl
    rw [hstep, ih]
    · have h0 := hout 0 (by simp)
      simp only [blockOff, List.take_zero, List.map_nil, List.sum_nil,
        List.getD_cons_zero] at h0
      rw [placeBlock]
      rw [if_neg]
      omega
    · intro k hk
      have hk1 := hout (k + 1) (by simpa using Nat.succ_lt_succ hk)
      rw [blockOff_cons, List.getD_cons_succ] at hk1
      omega

theorem concatFold_block (ms : List (Nat × (Nat → Nat → Int))) :
    ∀ (q : Nat) (M : Nat → Nat → Int) (k : Nat), k < ms.length →
    ∀ a b, a < (ms.getD k blockDefault).1 → b < (ms.getD k blockDefault).1 →
    (concatFold ms q M).2 (q + blockOff ms k + a) (q + blockOff ms k + b)
      = (ms.getD k blockDefault).2 a b := by
  induction ms with
  | nil => intro q M k hk; simp at hk
  | cons x ms ih =>
    intro q M k hk a b ha hb
    have hstep : concatFold (x :: ms) q M
        = concatFold ms (q + x.1) (placeBlock M q x.1 x.2) := rfl
    rw [hstep]
    match k with
    | 0 =>
      simp only [List.getD_cons_zero] at ha hb ⊢
      have hoff : blockOff (x :: ms) 0 = 0 := by
        simp [blockOff]
      rw [hoff]
      rw [concatFold_untouched]
      · rw [placeBlock, if_pos (by omega)]
        have e1 : q + 0 + a - q = a := by omega
        have e2 : q + 0 + b - q = b := by omega
        rw [e1, e2]
      · intro k' hk' hin
        omega
    | k' + 1 =>
      rw [List.getD_cons_succ] at ha hb ⊢
      have e1 : q + blockOff (x :: ms) (k' + 1) + a
          = (q + x.1) + blockOff ms k' + a := by
        rw [blockOff_cons]
        omega
      have e2 : q + blockOff (x :: ms) (k' + 1) + b
          = (q + x.1) + blockOff ms k' + b := by
        rw [blockOff_cons]
        omega
      rw [e1, e2]
      exact ih (q + x.1) _ k' (by simpa using Nat.lt_of_succ_lt_succ hk)
        a b ha hb

/-- C8: `concat_connect` on square matrices `M1..Mk` of sizes `n1..nk`
returns a square matrix of size `n1+...+nk` with the blocks placed
consecutively on the diagonal in input order and every off-block entry
equal to `fill_with`. -/
theorem concat_connect_spec (ms : List (Nat × (Nat → Nat → Int)))
    (fill : Int) :
    (concat_connect ms fill).1 = (ms.map Prod.fst).sum ∧
    (∀ k, k < ms.length →
      ∀ a b, a < (ms.getD k blockDefault).1 → b < (ms.getD k blockDefault).1 →
      (concat_connect ms fill).2 (blockOff ms k + a) (blockOff ms k + b)
        = (ms.getD k blockDefault).2 a b) ∧
    (∀ i j,
      (∀ k, k < ms.length →
        ¬(blockOff ms k ≤ i ∧
          i < blockOff ms k + (ms.getD k blockDefault).1 ∧
          blockOff ms k ≤ j ∧
          j < blockOff ms k + (ms.getD k blockDefault).1)) →
      (concat_connect ms fill).2 i j = fill) := by
  refine ⟨?_, ?_, ?_⟩
  · rw [concat_connect, concatFold_fst]
    omega
  · intro k hk a b ha hb
    have h := concatFold_block ms 0 (fun _ _ => fill) k hk a b ha hb
    simpa using h
  · intro i j hout
    rw [concat_connect, concatFold_untouched]
    intro k hk
    have h := hout k hk
    omega

theorem concat_connect_spec_witness :
    (concat_connect [(2, fun i j => (10 * i + j : Int)),
      (1, fun _ _ => (7 : Int))] (-1)).1 = 3 ∧
    (concat_connect [(2, fun i j => (10 * i + j : Int)),
      (1, fun _ _ => (7 : Int))] (-1)).2 2 2 = 7 ∧
    (concat_connect [(2, fun i j => (10 * i + j : Int)),
      (1, fun _ _ => (7 : Int))] (-1)).2 0 2 = -1 := by
  have h := concat_connect_spec
    [(2, fun i j => (10 * i + j : Int)), (1, fun _ _ => (7 : Int))] (-1)
  refine ⟨by simpa using h.1, ?_, ?_⟩
  · have hb := h.2.1 1 (by simp) 0 0 (by simp [blockDefault])
      (by simp [blockDefault])
    simpa [blockOff, blockDefault] using hb
  · refine h.2.2 0 2 ?_
    intro k hk
    simp only [List.length_cons, List.length_nil] at hk
    match k with
    | 0 => simp [blockOff, blockDefault]
    | 1 => simp [blockOff, blockDefault]
    | k + 2 => omega

/-- Step of `runsOf`: collect maximal runs of characters satisfying `p`. -/
def runsStep (p : Char → Bool) (c : Char)
    (acc : List Char × List (List Char)) : List Char × List (List Char) :=
  if p c then (c :: acc.1, acc.2)
  else ([], if acc.1 = [] then acc.2 else acc.1 :: acc.2)

/-- Maximal runs of characters satisfying `p`, in order of appearance: the
model of `re.findall(r'\d+', k)` (`p` = digit) and of `re.findall(r'\D+', k)`
(`p` = non-digit) on a channel label. -/
def runsOf (p : Char → Bool) (s : String) : List String :=
  let acc := s.toList.foldr (runsStep p) ([], [])
  (if acc.1 = [] then acc.2 else acc.1 :: acc.2).map List.asString

/-- Parse of one channel label in `remove_site_contact`: the first non-digit
run (the electrode letter) together with the two digit runs (the two contact
numbers), mirroring `[findall(r'\D+', k)[0]] + findall(r'\d+', k)` followed by
the unpacking `letter, digit_1, digit_2 = [k[0], int(k[1]), int(k[2])]`.
A label without a leading non-digit run or with a number of digit runs other
than two makes the source raise an IndexError (modelled by `none`). -/
def parseChan (s : String) : Option (String × String × String) :=
  match runsOf (fun c => !c.isDigit) s, runsOf Char.isDigit s with
  | l :: _, [d1, d2] => some (l, d1, d2)
  | _, _ => none

/-- `int(d)` on an all-digit run: base-10 value of the digit characters. -/
def digitsToNat (d : String) : Nat :=
  d.toList.foldl (fun n c => n * 10 + (c.toNat - '0'.toNat)) 0

/-- `str(int(d) + 1)`: the string written for the next contact number. -/
def succDigits (d : String) : String :=
  Nat.repr (digitsToNat d + 1)

/-- `remove_site_contact(mat, channels, mode, remove_lower, symmetrical)`
from `correction.py`: builds the boolean exclusion mask over the parsed
channel rows — `'soft'` marks the row whose parsed triple equals
`(letter, digit_1 + 1, digit_2 + 1)` (string comparison against the numpy
string array), `'hard'` marks every other row with the same letter — then
forces the lower triangle (diagonal included) to `remove_lower`, optionally
OR-symmetrises via `symmetrize` on the 0/1 matrix, and finally forces the
diagonal to `True`. A mode outside `{'soft', 'hard'}` fails the assertion
and an unparsable channel raises (both modelled by `none`). -/
def remove_site_contact (channels : List String) (mode : String)
    (removeLower symmetrical : Bool) : Option (Nat → Nat → Bool) :=
  if mode = "soft" ∨ mode = "hard" then
    match channels.mapM parseChan with
    | none => none
    | some rows =>
      let base : Nat → Nat → Bool := fun i j =>
        match rows.get? i, rows.get? j with
        | some (l, d1, d2), some rj =>
          if mode = "soft" then
            decide (rj = (l, succDigits d1, succDigits d2))
          else
            decide (rj.1 = l) && decide (i ≠ j)
        | _, _ => false
      let afterTril : Nat → Nat → Bool := fun i j =>
        if j ≤ i then removeLower else base i j
      let afterSym : Nat → Nat → Bool :=
        if symmetrical then
          fun i j =>
            decide (symmetrizeFun
              (fun a b => if afterTril a b then 1 else 0) i j ≠ 0)
        else afterTril
      some (fun i j => if i = j then true else afterSym i j)
  else none

/-- Mask entry read through the `Option`: `some (M i j)` when the call
succeeds, `none` when it raises. -/
def maskAt (o : Option (Nat → Nat → Bool)) (i j : Nat) : Option Bool :=
  o.map fun f => f i j

/-- C1 counterexample: on the channel list `["A1", "A2", "B1"]` each label
has a single digit run, so the unpacking `k[2]` raises an IndexError in both
modes — `remove_site_contact` returns no mask at all, contradicting the
claimed mask entries. -/
theorem remove_site_contact_single_digit_raises :
    (remove_site_contact ["A1", "A2", "B1"] "soft" false false).isNone = true
    ∧ (remove_site_contact ["A1", "A2", "B1"] "hard" false false).isNone
      = true := by
  decide

/-- C1 amended: on channel labels carrying two contact numbers,
`["A1-1", "A2-2", "B1-1"]`, the `'soft'` mask at index 0 (letter `A`,
contacts 1,1) marks index 1 (letter `A`, contacts 2,2) and not index 2; the
`'hard'` mask at index 0 marks exactly the other index sharing letter `A`
(index 1) and not index 2; and the diagonal is `True` in both modes. -/
theorem remove_site_contact_two_digit_spec :
    maskAt (remove_site_contact ["A1-1", "A2-2", "B1-1"] "soft" false false)
      0 1 = some true ∧
    maskAt (remove_site_contact ["A1-1", "A2-2", "B1-1"] "soft" false false)
      0 2 = some false ∧
    maskAt (remove_site_contact ["A1-1", "A2-2", "B1-1"] "hard" false false)
      0 1 = some true ∧
    maskAt (remove_site_contact ["A1-1", "A2-2", "B1-1"] "hard" false false)
      0 2 = some false ∧
    (maskAt (remove_site_contact ["A1-1", "A2-2", "B1-1"] "soft" false false)
      0 0 = some true ∧
    maskAt (remove_site_contact ["A1-1", "A2-2", "B1-1"] "soft" false false)
      1 1 = some true ∧
    maskAt (remove_site_contact ["A1-1", "A2-2", "B1-1"] "soft" false false)
      2 2 = some true ∧
    maskAt (remove_site_contact ["A1-1", "A2-2", "B1-1"] "hard" false false)
      0 0 = some true ∧
    maskAt (remove_site_contact ["A1-1", "A2-2", "B1-1"] "hard" false false)
      1 1 = some true ∧
    maskAt (remove_site_contact ["A1-1", "A2-2", "B1-1"] "hard" false false)
      2 2 = some true) := by
  decide


/-- Lexicographic order on character lists by code point: the string order
Python (and hence pandas' sorted group keys) uses. -/
def lexLt : List Char → List Char → Bool
  | [], [] => false
  | [], _ :: _ => true
  | _ :: _, [] => false
  | a :: as, b :: bs =>
    if a.toNat < b.toNat then true
    else if b.toNat < a.toNat then false
    else lexLt as bs

theorem lexLt_self : ∀ as : List Char, lexLt as as = false := by
  intro as
  induction as with
  | nil => rfl
  | cons a as ih => simp [lexLt, ih]

theorem lexLt_trans :
    ∀ (as bs cs : List Char), lexLt as bs = true → lexLt bs cs = true →
    lexLt as cs = true := by
  intro as
  induction as with
  | nil =>
    intro bs cs h1 h2
    match bs, cs with
    | [], _ => exact absurd h1 (by simp [lexLt])
    | _ :: _, [] => exact absurd h2 (by simp [lexLt])
    | _ :: _, _ :: _ => rfl
  | cons a as ih =>
    intro bs cs h1 h2
    match bs, cs with
    | [], _ => exact absurd h1 (by simp [lexLt])
    | _ :: _, [] => exact absurd h2 (by simp [lexLt])
    | b :: bs, c :: cs =>
      rw [lexLt] at h1 h2 ⊢
      by_cases hab : a.toNat < b.toNat
      · by_cases hbc : b.toNat < c.toNat
        · rw [if_pos (by omega)]
        · rw [if_pos hab] at h1
          rw [if_neg hbc] at h2
          by_cases hcb : c.toNat < b.toNat
          · rw [if_pos hcb] at h2
            exact absurd h2 (by simp)
          · rw [if_pos (by omega)]
      · rw [if_neg hab] at h1
        by_cases hba : b.toNat < a.toNat
        · rw [if_pos hba] at h1
          exact absurd h1 (by simp)
        · rw [if_neg hba] at h1
          by_cases hbc : b.toNat < c.toNat
          · rw [if_pos (by omega)]
          · rw [if_neg hbc] at h2
            by_cases hcb : c.toNat < b.toNat
            · rw [if_pos hcb] at h2
              exact absurd h2 (by simp)
            · rw [if_neg hcb] at h2
              rw [if_neg (by omega), if_neg (by omega)]
              exact ih bs cs h1 h2

theorem lexLt_total_of_ne :
    ∀ (as bs : List Char), as ≠ bs →
    lexLt as bs = true ∨ lexLt bs as = true := by
  intro as
  induction as with
  | nil =>
    intro bs hne
    match bs with
    | [] => exact absurd rfl hne
    | _ :: _ => exact Or.inl rfl
  | cons a as ih =>
    intro bs hne
    match bs with
    | [] => exact Or.inr rfl
    | b :: bs =>
      rw [lexLt, lexLt]
      by_cases hab : a.toNat < b.toNat
      · exact Or.inl (by rw [if_pos hab])
      · by_cases hba : b.toNat < a.toNat
        · exact Or.inr (by rw [if_pos hba])
        · have hchar : a = b := by
            have hn : a.toNat = b.toNat := by omega
            have hv : a.val = b.val := UInt32.toNat.inj hn
            exact Char.eq_of_val_eq hv
          subst hchar
          have htail : as ≠ bs := fun h => hne (by rw [h])
          rcases ih bs htail with h | h
          · exact Or.inl (by rw [if_neg hab, if_neg hba]; exact h)
          · exact Or.inr (by rw [if_neg hab, if_neg hba]; exact h)

/-- The string comparison used for the group keys. -/
def strLt (x y : String) : Bool :=
  lexLt x.data y.data

/-- Insertion of one key into the sorted duplicate-free key list of a
group-by: `df.groupby(col)` with the default `sort=True` keeps its group
keys as a sorted unique index. -/
def insertKey (x : String) : List String → List String
  | [] => [x]
  | y :: ys =>
    if x = y then y :: ys
    else if strLt x y then x :: y :: ys
    else y :: insertKey x ys

/-- The group keys of `df.groupby(col).groups` in iteration order: the
distinct values of the column, sorted ascending (pandas default
`sort=True`). -/
def groupKeys (vals : List String) : List String :=
  vals.foldl (fun acc v => insertKey v acc) []

/-- The row indices of the group of key `k`, in ascending row order — the
per-group index list of `.groups`. -/
def positionsOf (vals : List String) (k : String) : List Nat :=
  (List.range vals.length).filter fun i => vals[i]? == some k

/-- The `index` output of `anat_based_reorder` from `correction.py`:
`np.concatenate([list(k) for k in grp.values()])`, the concatenation of the
per-group row-index lists in the iteration order of
`df.groupby(col).groups`. -/
def anat_based_reorder_index (vals : List String) : List Nat :=
  (groupKeys vals).flatMap (positionsOf vals)

/-- Modelled from the spec: the index ordering the specification describes,
with group order equal to the order of first appearance of each value in the
table. -/
def spec_reorder_index (vals : List String) : List Nat :=
  (vals.foldl (fun acc v => if v ∈ acc then acc else acc ++ [v]) []).flatMap
    (positionsOf vals)

theorem strLt_trans {x y z : String} (h1 : strLt x y = true)
    (h2 : strLt y z = true) : strLt x z = true :=
  lexLt_trans x.data y.data z.data h1 h2

theorem strLt_irrefl (x : String) : strLt x x = false :=
  lexLt_self x.data

theorem strLt_total_of_ne {x y : String} (h : x ≠ y) :
    strLt x y = true ∨ strLt y x = true := by
  refine lexLt_total_of_ne x.data y.data fun hd => h ?_
  cases x
  cases y
  exact congrArg String.mk hd

theorem mem_insertKey (x a : String) :
    ∀ l : List String, a ∈ insertKey x l ↔ a = x ∨ a ∈ l := by
  intro l
  induction l with
  | nil => simp [insertKey]
  | cons y ys ih =>
    rw [insertKey]
    by_cases hxy : x = y
    · subst hxy
      rw [if_pos rfl]
      simp only [List.mem_cons]
      tauto
    · rw [if_neg hxy]
      by_cases hlt : strLt x y = true
      · rw [if_pos hlt]
        simp [List.mem_cons]
      · rw [if_neg hlt]
        simp only [List.mem_cons, ih]
        tauto

theorem sorted_insertKey (x : String) :
    ∀ l : List String, l.Sorted (fun a b => strLt a b = true) →
    (insertKey x l).Sorted (fun a b => strLt a b = true) := by
  intro l
  induction l with
  | nil => intro _; simp [insertKey]
  | cons y ys ih =>
    intro hs
    rw [List.sorted_cons] at hs
    obtain ⟨hy, hys⟩ := hs
    rw [insertKey]
    by_cases hxy : x = y
    · rw [if_pos hxy, List.sorted_cons]
      exact ⟨hy, hys⟩
    · rw [if_neg hxy]
      by_cases hlt : strLt x y = true
      · rw [if_pos hlt, List.sorted_cons]
        refine ⟨?_, ?_⟩
        · intro b hb
          rcases List.mem_cons.1 hb with rfl | hb
          · exact hlt
          · exact strLt_trans hlt (hy b hb)
        · rw [List.sorted_cons]
          exact ⟨hy, hys⟩
      · rw [if_neg hlt]
        have hyx : strLt y x = true := by
          rcases strLt_total_of_ne hxy with h | h
          · exact absurd h hlt
          · exact h
        rw [List.sorted_cons]
        refine ⟨?_, ih hys⟩
        intro b hb
        rcases (mem_insertKey x b ys).1 hb with rfl | hb
        · exact hyx
        · exact hy b hb

theorem foldl_insertKey_sorted (vs : List String) :
    ∀ acc : List String, acc.Sorted (fun a b => strLt a b = true) →
    (vs.foldl (fun a v => insertKey v a) acc).Sorted
      (fun a b => strLt a b = true) := by
  induction vs with
  | nil => intro acc h; exact h
  | cons v vs ih =>
    intro acc h
    exact ih (insertKey v acc) (sorted_insertKey v acc h)

theorem groupKeys_sorted (vals : List String) :
    (groupKeys vals).Sorted (fun a b => strLt a b = true) :=
  foldl_insertKey_sorted vals [] (by simp)

theorem mem_foldl_insertKey (k : String) :
    ∀ (vs : List String) (acc : List String),
    k ∈ vs.foldl (fun a v => insertKey v a) acc ↔ k ∈ acc ∨ k ∈ vs := by
  intro vs
  induction vs with
  | nil => intro acc; simp
  | cons v vs ih =>
    intro acc
    rw [List.foldl_cons, ih, mem_insertKey]
    simp only [List.mem_cons]
    tauto

theorem mem_groupKeys (vals : List String) (k : String) :
    k ∈ groupKeys vals ↔ k ∈ vals := by
  rw [groupKeys, mem_foldl_insertKey]
  simp

theorem sum_map_indicator_zero (k0 : String) (c : Nat) :
    ∀ keys : List String, k0 ∉ keys →
    (keys.map fun k => if (k0 == k) = true then c else 0).sum = 0 := by
  intro keys
  induction keys with
  | nil => intro _; simp
  | cons y ys ih =>
    intro hk
    rw [List.mem_cons, not_or] at hk
    rw [List.map_cons, List.sum_cons, ih hk.2]
    have : (k0 == y) = false := by
      simpa using hk.1
    rw [this]
    simp

theorem sum_map_indicator_of_nodup (k0 : String) (c : Nat) :
    ∀ keys : List String, keys.Nodup → k0 ∈ keys →
    (keys.map fun k => if (k0 == k) = true then c else 0).sum = c := by
  intro keys
  induction keys with
  | nil => intro _ h; simp at h
  | cons y ys ih =>
    intro hnd hk
    rw [List.nodup_cons] at hnd
    rw [List.map_cons, List.sum_cons]
    by_cases hy : k0 = y
    · subst hy
      rw [sum_map_indicator_zero k0 c ys hnd.1]
      simp
    · have h1 : (k0 == y) = false := by
        simpa using hy
      rw [h1]
      rcases List.mem_cons.1 hk with rfl | hk
      · exact absurd rfl hy
      · rw [ih hnd.2 hk]
        simp

theorem count_filter_eq (a : Nat) (p : Nat → Bool) (l : List Nat) :
    (l.filter p).count a = if p a = true then l.count a else 0 := by
  by_cases h : p a = true
  · rw [if_pos h, List.count_filter h]
  · rw [if_neg h, List.count_eq_zero]
    intro hmem
    exact h (List.mem_filter.1 hmem).2

theorem flatMap_filter_perm (g : Nat → Option String) :
    ∀ (keys : List String) (l : List Nat), keys.Nodup →
    (∀ i ∈ l, ∃ k ∈ keys, g i = some k) →
    (keys.flatMap fun k => l.filter fun i => g i == some k).Perm l := by
  intro keys l hnd hcov
  rw [List.perm_iff_count]
  intro a
  rw [List.count_flatMap]
  have hterm : (List.count a ∘ fun k => l.filter fun i => g i == some k)
      = fun k => if (g a == some k) = true then l.count a else 0 := by
    funext k
    simp only [Function.comp_apply]
    exact count_filter_eq a _ l
  rw [hterm]
  by_cases hal : a ∈ l
  · obtain ⟨k0, hk0, hg⟩ := hcov a hal
    have hrw : (keys.map fun k => if (g a == some k) = true then l.count a
        else 0) = keys.map fun k => if (k0 == k) = true then l.count a
          else 0 := by
      apply List.map_congr_left
      intro k _
      rw [hg]
      rfl
    rw [hrw, sum_map_indicator_of_nodup k0 (l.count a) keys hnd hk0]
  · have hc : l.count a = 0 := List.count_eq_zero.2 hal
    rw [hc]
    simp

/-- C2 counterexample: for a table whose grouping column reads `["b", "a"]`,
`anat_based_reorder` visits group `"a"` first (sorted keys), giving index
`[1, 0]`, while first-appearance order would give `[0, 1]`. -/
theorem anat_based_reorder_index_order_counterexample :
    anat_based_reorder_index ["b", "a"] = [1, 0] ∧
    spec_reorder_index ["b", "a"] = [0, 1] ∧
    anat_based_reorder_index ["b", "a"] ≠ spec_reorder_index ["b", "a"] := by
  refine ⟨by decide, by decide, ?_⟩
  intro h
  rw [show anat_based_reorder_index ["b", "a"] = [1, 0] by decide,
    show spec_reorder_index ["b", "a"] = [0, 1] by decide] at h
  exact absurd h (by decide)

/-- C2 amended: `anat_based_reorder` groups electrode indices by the
column's values with group order equal to the ascending sorted order of the
distinct values (pandas `groupby` default `sort=True`), not their order of
first appearance; the returned index array is the concatenation of the
per-group ascending index lists in that order, and is a permutation of
`0..n-1`. -/
theorem anat_based_reorder_index_spec (vals : List String) :
    (groupKeys vals).Sorted (fun a b => strLt a b = true) ∧
    (∀ k, k ∈ groupKeys vals ↔ k ∈ vals) ∧
    anat_based_reorder_index vals
      = (groupKeys vals).flatMap (positionsOf vals) ∧
    (anat_based_reorder_index vals).Perm (List.range vals.length) := by
  refine ⟨groupKeys_sorted vals, mem_groupKeys vals, rfl, ?_⟩
  have hnd : (groupKeys vals).Nodup := by
    refine (groupKeys_sorted vals).imp ?_
    intro a b hab
    intro he
    subst he
    rw [strLt_irrefl] at hab
    exact absurd hab (by simp)
  refine flatMap_filter_perm (fun i => vals[i]?) (groupKeys vals)
    (List.range vals.length) hnd ?_
  intro i hi
  rw [List.mem_range] at hi
  refine ⟨vals[i], ?_, ?_⟩
  · exact (mem_groupKeys vals _).2 (List.getElem_mem hi)
  · exact List.getElem?_eq_getElem hi

/-- `np.fill_diagonal(x, 0.)`: zeroes the diagonal in place. -/
def fillDiagZero (A : Nat → Nat → Int) : Nat → Nat → Int :=
  fun i j => if i = j then 0 else A i j

/-- `np.triu(x)`: keeps the upper triangle (diagonal included), zeroes the
rest, returning a fresh array. -/
def triuMat (A : Nat → Nat → Int) : Nat → Nat → Int :=
  fun i j => if i ≤ j then A i j else 0

/-- The array manipulations of `anat_based_mean` (unmasked branch of
`correction.py` lines 168-179) with the aliasing of the source made
explicit: `np.fill_diagonal(x, 0.)` mutates the caller's array; `x =
np.triu(x)` rebinds the local name to a fresh copy; `x += x.T` then mutates
only that copy. The first component is the caller's array after the call,
the second is the local working array the block means are taken from. -/
def anat_based_mean_arrays (A : Nat → Nat → Int) :
    (Nat → Nat → Int) × (Nat → Nat → Int) :=
  let xCaller := fillDiagZero A
  let xLocal := triuMat xCaller
  let xLocal2 := fun i j => xLocal i j + xLocal j i
  (xCaller, xLocal2)

/-- The caller's array after `anat_based_mean` returns. -/
def anat_x_after (A : Nat → Nat → Int) : Nat → Nat → Int :=
  (anat_based_mean_arrays A).1

/-- The local working array of `anat_based_mean`. -/
def anat_x_work (A : Nat → Nat → Int) : Nat → Nat → Int :=
  (anat_based_mean_arrays A).2

/-- C3 counterexample: `anat_based_mean` is not side-effect-free — on the
2×2 input `[[1, 2], [3, 4]]` the caller's array entry `(0,0)` reads `1`
before the call and `0` after it (`np.fill_diagonal` zeroes the input in
place). -/
theorem anat_based_mean_mutates_input :
    anat_x_after (fun i j => (2 * i + j + 1 : Int)) 0 0 = 0 ∧
    (fun i j => (2 * i + j + 1 : Int)) 0 0 = 1 ∧
    anat_x_after (fun i j => (2 * i + j + 1 : Int))
      ≠ (fun i j => (2 * i + j + 1 : Int)) := by
  refine ⟨rfl, rfl, ?_⟩
  intro h
  have h00 : (0 : Int) = 1 := by
    simpa [anat_x_after, anat_based_mean_arrays, fillDiagZero, triuMat]
      using congrFun (congrFun h 0) 0
  exact absurd h00 (by norm_num)

/-- C3 amended: the listed operations other than `anat_based_mean` are pure
functions of their inputs (as embedded above); `anat_based_mean` mutates its
input matrix in place by zeroing its diagonal (the rest of the
symmetrisation happens on a fresh copy, the working array
`triu(x) + triu(x).T`), and with a conforming `xyz` it also writes X, Y, Z
columns into the input table. -/
theorem anat_based_mean_arrays_spec (A : Nat → Nat → Int) (i j : Nat) :
    anat_x_after A i j = (if i = j then 0 else A i j) ∧
    anat_x_work A i j
      = (if i = j then 0 else if i ≤ j then A i j else A j i) := by
  constructor
  · rfl
  · simp only [anat_x_work, anat_based_mean_arrays, triuMat, fillDiagZero]
    by_cases hij : i = j
    · subst hij
      simp
    · have hji : ¬ j = i := fun h => hij h.symm
      by_cases hle : i ≤ j
      · have hnle : ¬ j ≤ i := by omega
        simp [hij, hji, hle, hnle]
      · have hle2 : j ≤ i := by omega
        simp [hij, hji, hle, hle2]

/-- The three shapes of the `xyz` argument of `anat_based_mean`: absent
(`None`), a numpy array with a given number of rows, or any other value. -/
inductive XyzArg where
  | absent
  | ndarray (rows : Nat)
  | other
  deriving DecidableEq, Repr

/-- The two result shapes of `anat_based_mean`: `(con, labels)` or
`(con, labels, xyz_r)`. -/
inductive AnatRet where
  | pair
  | triple
  deriving DecidableEq, Repr

/-- The return dispatch of `anat_based_mean` (`correction.py` lines
187-194): `xyz is None` returns the pair; an ndarray whose row count equals
the table length returns the triple; any other case falls off the end of
the function, returning `None` (modelled by `none`). -/
def anat_based_mean_ret (nrows : Nat) (xyz : XyzArg) : Option AnatRet :=
  match xyz with
  | .absent => some .pair
  | .ndarray r => if nrows = r then some .triple else none
  | .other => none

/-- C10: if `anat_based_mean` is called with `xyz` not `None` but either
not a numpy array or with a number of rows different from the number of
table rows, it returns `None` instead of raising or returning the
aggregated result. -/
theorem anat_based_mean_xyz_fallthrough (nrows : Nat) (xyz : XyzArg)
    (h : xyz = XyzArg.other ∨ ∃ r, xyz = XyzArg.ndarray r ∧ nrows ≠ r) :
    anat_based_mean_ret nrows xyz = none := by
  rcases h with rfl | ⟨r, rfl, hne⟩
  · rfl
  · simp [anat_based_mean_ret, hne]

theorem anat_based_mean_xyz_fallthrough_witness :
    anat_based_mean_ret 2 (XyzArg.ndarray 3) = none :=
  anat_based_mean_xyz_fallthrough 2 (XyzArg.ndarray 3)
    (Or.inr ⟨3, rfl, by decide⟩)

/-- An idealised floating-point magnitude value: a finite rational, one of
the two infinities, or NaN. -/
inductive FVal where
  | fin (q : ℚ)
  | pinf
  | ninf
  | nan
  deriving DecidableEq, Repr

/-- `gc_real[np.isinf(gc_real)] = 0.` from `stgc.py`. -/
def replaceInfZero (v : FVal) : FVal :=
  match v with
  | .pinf => .fin 0
  | .ninf => .fin 0
  | x => x

/-- `gc_real[np.isnan(gc_real)] = 0.` from `stgc.py`. -/
def replaceNanZero (v : FVal) : FVal :=
  match v with
  | .nan => .fin 0
  | x => x

/-- The final sanitisation stage of `covgc_time` (`stgc.py` lines 128-132):
infinite magnitudes are zeroed first, then NaN magnitudes. -/
def covgc_gc_sanitize (gc : List FVal) : List FVal :=
  (gc.map replaceInfZero).map replaceNanZero

/-- What `np.abs` of a (possibly complex) value can be: NaN, `+inf`, or a
finite non-negative value — never a negative number and never `-inf`. -/
def isMagnitudeVal (v : FVal) : Prop :=
  v = .nan ∨ v = .pinf ∨ ∃ q, v = .fin q ∧ 0 ≤ q

/-- C5: for entries of `gc` that are magnitudes of (possibly complex)
causality values, every entry of the returned array after the infinite/NaN
coercion of `covgc_time` is a finite non-negative number. -/
theorem covgc_gc_entries_finite_nonneg (gc : List FVal)
    (h : ∀ v ∈ gc, isMagnitudeVal v) :
    ∀ w ∈ covgc_gc_sanitize gc, ∃ q, w = FVal.fin q ∧ 0 ≤ q := by
  intro w hw
  simp only [covgc_gc_sanitize, List.mem_map] at hw
  obtain ⟨u, ⟨v, hv, rfl⟩, rfl⟩ := hw
  rcases h v hv with rfl | rfl | ⟨q, rfl, hq⟩
  · exact ⟨0, rfl, le_refl 0⟩
  · exact ⟨0, rfl, le_refl 0⟩
  · exact ⟨q, rfl, hq⟩

theorem covgc_gc_entries_finite_nonneg_witness :
    ∃ q, FVal.fin 0 = FVal.fin q ∧ (0 : ℚ) ≤ q := by
  have hmag : ∀ v ∈ [FVal.fin 2, FVal.pinf, FVal.nan], isMagnitudeVal v := by
    intro v hv
    simp only [List.mem_cons, List.not_mem_nil, or_false] at hv
    rcases hv with rfl | rfl | rfl
    · exact Or.inr (Or.inr ⟨2, rfl, by norm_num⟩)
    · exact Or.inr (Or.inl rfl)
    · exact Or.inl rfl
  refine covgc_gc_entries_finite_nonneg [FVal.fin 2, FVal.pinf, FVal.nan]
    hmag (FVal.fin 0) ?_
  simp [covgc_gc_sanitize, replaceInfZero, replaceNanZero]

/-- ASCII lower-casing of one character, the effect of Python's
`str.lower()` on the method selectors in play. -/
def asciiToLower (c : Char) : Char :=
  if 65 ≤ c.toNat ∧ c.toNat ≤ 90 then Char.ofNat (c.toNat + 32) else c

/-- `method.lower()` over the label's characters. -/
def lowerStr (s : String) : String :=
  String.mk (s.data.map asciiToLower)

/-- Whether `needle` is an initial segment of `hay`. -/
def leadsWith : List Char → List Char → Bool
  | [], _ => true
  | _ :: _, [] => false
  | a :: as, b :: bs => a = b && leadsWith as bs

/-- Whether `needle` occurs as a contiguous subsequence of `hay`:
`hay.find(needle) + 1` is truthy exactly when this holds. -/
def containsSeq (needle : List Char) : List Char → Bool
  | [] => leadsWith needle []
  | c :: cs => leadsWith needle (c :: cs) || containsSeq needle cs

/-- The test `method.lower().find('_rnd') + 1` of `classify.stat`: truthy
exactly when `'_rnd'` occurs in the lower-cased method string. -/
def hasRndSub (method : String) : Bool :=
  containsSeq "_rnd".data (lowerStr method).data

/-- The three permutation schemes of `_classifyPerm`. -/
inductive PermScheme where
  | labelRnd
  | fullRnd
  | intraRnd
  deriving DecidableEq, Repr

/-- The outcome of the `method` dispatch in `classify.stat`: the binomial
branch, the permutation branch carrying the scheme `_classifyPerm` selects
(`none` when `_classifyPerm` matches no scheme and falls through, returning
`None`), or the `raise ValueError` branch. -/
inductive StatBranch where
  | bino
  | perm (scheme : Option PermScheme)
  | err
  deriving DecidableEq, Repr

/-- The scheme selection of `_classifyPerm` (`classification.py` lines
239-257): an exact, case-sensitive match against the three scheme names,
with a fall-through returning `None` otherwise. -/
def classifyPermScheme (method : String) : Option PermScheme :=
  if method = "label_rnd" then some .labelRnd
  else if method = "full_rnd" then some .fullRnd
  else if method = "intra_rnd" then some .intraRnd
  else none

/-- The `method` dispatch of `classify.stat` (`classification.py` lines
202-236): `'bino'` takes the binomial branch; otherwise any method whose
lower-cased text contains `'_rnd'` takes the permutation branch; only the
remaining methods reach `raise ValueError`. -/
def stat_dispatch (method : String) : StatBranch :=
  if method = "bino" then .bino
  else if hasRndSub method then .perm (classifyPermScheme method)
  else .err

/-- C9 counterexample: the method string `"foo_rnd"` is outside the
enumerated set `{'bino', 'label_rnd', 'full_rnd', 'intra_rnd'}` yet
`classify.stat` does not raise for it: it enters the permutation branch and
`_classifyPerm` matches no scheme, returning `None`. -/
theorem stat_unknown_rnd_not_rejected :
    stat_dispatch "foo_rnd" = StatBranch.perm none ∧
    "foo_rnd" ∉ ["bino", "label_rnd", "full_rnd", "intra_rnd"] := by
  constructor
  · decide
  · decide

/-- C9 amended: `classify.stat` raises the invalid-argument `ValueError`
exactly for methods other than `'bino'` whose lower-cased text does not
contain `'_rnd'`; a method containing `'_rnd'` that is outside the
enumerated set is not rejected — it takes the permutation branch and
`_classifyPerm` returns no distribution (`None`); the four enumerated
methods take their documented branches. -/
theorem stat_dispatch_spec (m : String) :
    (stat_dispatch m = StatBranch.err ↔
      (m ≠ "bino" ∧ hasRndSub m = false)) ∧
    (hasRndSub m = true → m ≠ "bino" → m ≠ "label_rnd" → m ≠ "full_rnd" →
      m ≠ "intra_rnd" → stat_dispatch m = StatBranch.perm none) ∧
    stat_dispatch "bino" = StatBranch.bino ∧
    stat_dispatch "label_rnd" = StatBranch.perm (some PermScheme.labelRnd) ∧
    stat_dispatch "full_rnd" = StatBranch.perm (some PermScheme.fullRnd) ∧
    stat_dispatch "intra_rnd" = StatBranch.perm (some PermScheme.intraRnd)
    := by
  refine ⟨?_, ?_, by decide, by decide, by decide, by decide⟩
  · rw [stat_dispatch]
    by_cases hb : m = "bino"
    · subst hb
      simp
    · rw [if_neg hb]
      by_cases hr : hasRndSub m = true
      · rw [if_pos hr]
        simp [hb, hr]
      · rw [if_neg hr]
        simp only [Bool.not_eq_true] at hr
        simp [hb, hr]
  · intro hr hb h1 h2 h3
    rw [stat_dispatch, if_neg hb, if_pos hr, classifyPermScheme,
      if_neg h1, if_neg h2, if_neg h3]

theorem stat_dispatch_spec_witness :
    stat_dispatch "x_rnd" = StatBranch.perm none :=
  (stat_dispatch_spec "x_rnd").2.1 (by decide) (by decide) (by decide)
    (by decide) (by decide)
